import Mathlib

/-!
Shallow embedding of the gran procedural-audio engine (Rust) and proofs
about its specification claims.

Modelling conventions:
* `f32` values are modelled as real numbers (`ℝ`); the claims under study
  are structural (branching, lengths, exact formulas), not about rounding.
* Rust `Vec<f32>` / `[f32; N]` are modelled as `List ℝ`.
* A Rust function that can panic (a failed `assert!`, an `unwrap()` of
  `None`, an out-of-bounds index) is modelled as returning `Option`,
  with `none` for the panic.
* `&mut self` methods are modelled in state-passing style: they return
  the produced value together with the updated state.
* The global stream sample rate (`player::SAMPLE_RATE`, fixed at stream
  open time) is threaded as an explicit parameter `SR`.
* The thread-global random generator behind `rand::random_range` is
  modelled as an infinite stream of draws (`ℕ → ℝ`) carried, with a
  cursor, inside each noise wave function that consumes randomness.
-/

namespace Gran

noncomputable section

/-- Truncation of a real towards zero, the rounding used by Rust float-to-int
`as` casts and by the `%` remainder on floats. -/
def rtrunc (x : ℝ) : ℤ :=
  if 0 ≤ x then ⌊x⌋ else ⌈x⌉

/-- Semantics of Rust `%` on floats: remainder with the sign of the dividend. -/
def fmod (x y : ℝ) : ℝ :=
  x - y * rtrunc (x / y)

/-- Semantics of a Rust `as usize` cast of a float: truncate toward zero and
saturate below at zero. -/
def fToUsize (x : ℝ) : ℕ :=
  (rtrunc x).toNat

/-- Constant SAMPLES_PER_GRAIN from sound.rs: the fixed grain size. -/
def SAMPLES_PER_GRAIN : ℕ := 512

/-- A grain: one fixed-size block of samples (source type `[f32; SAMPLES_PER_GRAIN]`),
modelled as a list of reals. -/
abbrev Grain := List ℝ

/-- Embedding of `combine_grains` from player.rs.  The source builds
`combined = vec![0.0; grains[0].len()]`, adds every grain into it sample-wise,
and then divides every entry by `grains.len()`.  Indexing `grains[0]` of an
empty vector panics, hence the `Option`.  All grains produced by the callback
have the same fixed length `SAMPLES_PER_GRAIN`, so the sample-wise addition is
modelled with `zipWith`. -/
def combine_grains (grains : List Grain) : Option Grain :=
  match grains with
  | [] => none
  | g0 :: _ =>
    let combined :=
      grains.foldl (fun acc g => List.zipWith (fun a b => a + b) acc g)
        (List.replicate g0.length 0)
    some (combined.map (fun s => s / (grains.length : ℝ)))

/-- The mixing rule the specification sentence describes: the unweighted
sample-wise sum of the children's grains, with no normalization. -/
def spec_unweighted_mix (grains : List Grain) (i : ℕ) : ℝ :=
  (grains.map (fun g => g.getD i 0)).sum

lemma getD_zipWith_add (l1 l2 : List ℝ) (i : ℕ)
    (h1 : i < l1.length) (h2 : i < l2.length) :
    (List.zipWith (fun a b => a + b) l1 l2).getD i 0 = l1.getD i 0 + l2.getD i 0 := by
  induction l1 generalizing l2 i with
  | nil => simp at h1
  | cons a t ih =>
    cases l2 with
    | nil => simp at h2
    | cons b t2 =>
      cases i with
      | zero => simp
      | succ j =>
        simp only [List.zipWith_cons_cons, List.getD_cons_succ]
        exact ih t2 j (by simpa using h1) (by simpa using h2)

lemma length_zipWith_add (l1 l2 : List ℝ) (h : l1.length = l2.length) :
    (List.zipWith (fun a b => a + b) l1 l2).length = l1.length := by
  simp [List.length_zipWith, h]

lemma foldl_zipWith_getD (grains : List Grain) (acc : Grain) (i : ℕ)
    (hlen : ∀ g ∈ grains, g.length = acc.length) (hi : i < acc.length) :
    (grains.foldl (fun acc g => List.zipWith (fun a b => a + b) acc g) acc).getD i 0
      = acc.getD i 0 + (grains.map (fun g => g.getD i 0)).sum := by
  induction grains generalizing acc with
  | nil => simp
  | cons g t ih =>
    have hg : g.length = acc.length := hlen g (by simp)
    have hlen2 : (List.zipWith (fun a b => a + b) acc g).length = acc.length :=
      length_zipWith_add acc g hg.symm
    have ht : ∀ x ∈ t, x.length = (List.zipWith (fun a b => a + b) acc g).length := by
      intro x hx
      rw [hlen2]
      exact hlen x (by simp [hx])
    have := ih (List.zipWith (fun a b => a + b) acc g) ht (by rw [hlen2]; exact hi)
    simp only [List.foldl_cons] at *
    rw [this, getD_zipWith_add acc g i hi (by rw [hg]; exact hi)]
    simp [add_assoc]

lemma zipWith_add_replicate (n : ℕ) (a b : ℝ) :
    List.zipWith (fun x y => x + y) (List.replicate n a) (List.replicate n b)
      = List.replicate n (a + b) := by
  induction n with
  | zero => simp
  | succ m ih => simp [List.replicate_succ, ih]

lemma getD_replicate (n i : ℕ) (a d : ℝ) (h : i < n) :
    (List.replicate n a).getD i d = a := by
  rw [List.getD_eq_getElem _ _ (by simpa using h)]
  simp

lemma getD_map_zero (l : List ℝ) (f : ℝ → ℝ) (hf : f 0 = 0) (i : ℕ) :
    (l.map f).getD i 0 = f (l.getD i 0) := by
  by_cases h : i < l.length
  · rw [List.getD_eq_getElem _ _ (by simpa using h), List.getD_eq_getElem _ _ h]
    simp
  · push_neg at h
    rw [List.getD_eq_default _ _ (by simpa using h), List.getD_eq_default _ _ h, hf]

/-- Claim C1, as stated, is false: the callback mix divides by the number of
children.  Two identical all-ones grains mix to all-ones, not all-twos: the
mixed value at sample 0 differs from the unweighted sum at sample 0. -/
theorem combine_grains_normalizes_counterexample :
    combine_grains [List.replicate SAMPLES_PER_GRAIN 1, List.replicate SAMPLES_PER_GRAIN 1]
        = some (List.replicate SAMPLES_PER_GRAIN 1)
      ∧ spec_unweighted_mix
          [List.replicate SAMPLES_PER_GRAIN 1, List.replicate SAMPLES_PER_GRAIN 1] 0 = 2
      ∧ (List.replicate SAMPLES_PER_GRAIN (1 : ℝ)).getD 0 0 ≠ 2 := by
  have hpos : 0 < SAMPLES_PER_GRAIN := by norm_num [SAMPLES_PER_GRAIN]
  refine ⟨?_, ?_, ?_⟩
  · simp only [combine_grains, List.foldl_cons, List.foldl_nil, List.length_replicate,
      zipWith_add_replicate, List.map_replicate, List.length_cons, List.length_nil]
    norm_num
  · simp only [spec_unweighted_mix, List.map_cons, List.map_nil, List.sum_cons,
      List.sum_nil, getD_replicate _ _ _ _ hpos]
    norm_num
  · rw [getD_replicate _ _ _ _ hpos]
    norm_num

/-- Claim C1, amended: for a composition with at least one child sound, the
per-grain mix produced for the audio callback is the sample-wise sum of the
children's grains divided by the number of children (an average), so the sum
IS normalized by the child count. -/
theorem combine_grains_is_mean (grains : List Grain) (g0 : Grain) (rest : List Grain)
    (hg : grains = g0 :: rest) (i : ℕ)
    (hlen : ∀ g ∈ grains, g.length = g0.length) (hi : i < g0.length) :
    ∃ l, combine_grains grains = some l ∧
      l.getD i 0 = spec_unweighted_mix grains i / (grains.length : ℝ) := by
  subst hg
  refine ⟨_, rfl, ?_⟩
  have hlen2 : ∀ g ∈ g0 :: rest, g.length = (List.replicate g0.length (0 : ℝ)).length := by
    simpa using hlen
  have hfold := foldl_zipWith_getD (g0 :: rest) (List.replicate g0.length 0) i hlen2
    (by simpa using hi)
  have hflen : ((g0 :: rest).foldl (fun acc g => List.zipWith (fun a b => a + b) acc g)
      (List.replicate g0.length 0)).length = g0.length := by
    have : ∀ (gs : List Grain) (acc : Grain), (∀ g ∈ gs, g.length = acc.length) →
        (gs.foldl (fun acc g => List.zipWith (fun a b => a + b) acc g) acc).length
          = acc.length := by
      intro gs
      induction gs with
      | nil => intro acc _; rfl
      | cons g t ih =>
        intro acc hac
        have hg : g.length = acc.length := hac g (by simp)
        have h2 : (List.zipWith (fun a b => a + b) acc g).length = acc.length :=
          length_zipWith_add acc g hg.symm
        simp only [List.foldl_cons]
        rw [ih _ (by intro x hx; rw [h2]; exact hac x (by simp [hx])), h2]
    simpa using this (g0 :: rest) (List.replicate g0.length 0) hlen2
  rw [getD_map_zero _ _ (by simp), hfold, getD_replicate _ _ _ _ (by simpa using hi)]
  simp [spec_unweighted_mix]

/-- Concrete instance of the amended C1 theorem: averaging two all-ones grains
gives one at sample 0. -/
theorem combine_grains_is_mean_witness :
    ∃ l, combine_grains [List.replicate SAMPLES_PER_GRAIN 1, List.replicate SAMPLES_PER_GRAIN 1]
        = some l ∧
      l.getD 0 0 = spec_unweighted_mix
          [List.replicate SAMPLES_PER_GRAIN 1, List.replicate SAMPLES_PER_GRAIN 1] 0 / 2 := by
  have := combine_grains_is_mean
    [List.replicate SAMPLES_PER_GRAIN 1, List.replicate SAMPLES_PER_GRAIN 1]
    (List.replicate SAMPLES_PER_GRAIN 1) [List.replicate SAMPLES_PER_GRAIN 1] rfl 0
    (by
      intro g hg
      simp only [List.mem_cons, List.not_mem_nil, or_false] at hg
      rcases hg with hg | hg <;> rw [hg])
    (by norm_num [SAMPLES_PER_GRAIN])
  simpa using this

/-- Embedding of `hanning_window` from sound.rs / sample.rs. -/
def hanning_window (grain_size : ℕ) : List ℝ :=
  (List.range grain_size).map
    (fun i => 0.5 * (1 - Real.cos (2 * Real.pi * (i : ℝ) / ((grain_size : ℝ) - 1))))

/-- Embedding of `merge_grain_into_buffer` from sound.rs / sample.rs: keep the
head of the buffer, add the grain's head into the buffer's tail over the
overlap window, append the grain's tail. -/
def merge_grain_into_buffer (buffer grain : List ℝ) (overlap : ℝ) : List ℝ :=
  let overlap_len := fToUsize (overlap * (SAMPLES_PER_GRAIN : ℝ))
  let buffer_keep := buffer.take (buffer.length - overlap_len)
  let buffer_overlap := buffer.drop (buffer.length - overlap_len)
  let grain_overlap := grain.take overlap_len
  let grain_keep := grain.drop overlap_len
  buffer_keep ++ (buffer_overlap.zip grain_overlap).map (fun p => p.1 + p.2) ++ grain_keep

/-- Semantics of Rust's slice `chunks(n)`: split into consecutive chunks of
size `n`, the last one possibly shorter.  The source only calls it with
`n = SAMPLES_PER_GRAIN`; chunk size zero (a Rust panic) is mapped to `[]`
and is unreachable from the embedded callers. -/
def chunks (n : ℕ) (l : List ℝ) : List (List ℝ) :=
  match l with
  | [] => []
  | x :: xs =>
    if _hn : n = 0 then []
    else l.take n :: chunks n ((x :: xs).drop n)
termination_by l.length
decreasing_by
  simp only [List.length_drop, List.length_cons]
  omega

/-- Embedding of `compress` from sound.rs / sample.rs, the overlap-add
time-compression.  `none` models the panics: the `assert!` on the speed
range, and the two `unwrap()` calls on a possibly-empty list of grains.
Note the source's shadowing: after windowing all chunks but the last, it
takes the last of the WINDOWED list (not the original last chunk) to build
the final grain, so a clip of at most one chunk reaches
`grains.last().unwrap()` on an empty vector and panics. -/
def compress (samples : List ℝ) (speed : ℝ) : Option (List ℝ) :=
  if ¬(0 < speed ∧ speed ≤ 1) then none else
  let grains := chunks SAMPLES_PER_GRAIN samples
  match grains.getLast? with
  | none => none
  | some lastChunk =>
    let standard_window := hanning_window SAMPLES_PER_GRAIN
    let last_grain_len := lastChunk.length
    let final_window := hanning_window last_grain_len
    let windowed := (grains.take (grains.length - 1)).map
      (fun g => (g.zip standard_window).map (fun p => p.1 * p.2))
    match windowed.getLast? with
    | none => none
    | some wlast =>
      let final_grain_windowed :=
        (wlast.zip final_window).map (fun p => p.1 * p.2)
          ++ List.replicate (SAMPLES_PER_GRAIN - last_grain_len) 0
      let grains2 := windowed ++ [final_grain_windowed]
      match grains2 with
      | [] => none
      | first :: restg =>
        let buffer := restg.foldl (fun b g => merge_grain_into_buffer b g speed) first
        some (buffer.take (buffer.length - (SAMPLES_PER_GRAIN - last_grain_len)))

/-- Embedding of `normalize_sample_length` from sound.rs / sample.rs:
identity at the target length, zero-padding below it, and the overlap-add
compression (then a final trim or pad to the exact target) above it. -/
def normalize_sample_length (samples : List ℝ) (target_length : ℕ) : Option (List ℝ) :=
  if samples.length = target_length then some samples
  else if samples.length < target_length then
    some (samples ++ List.replicate (target_length - samples.length) 0)
  else
    let speed := (target_length : ℝ) / (samples.length : ℝ)
    match compress samples speed with
    | none => none
    | some compressed =>
      if target_length < compressed.length then some (compressed.take target_length)
      else if compressed.length < target_length then
        some (compressed ++ List.replicate (target_length - compressed.length) 0)
      else some compressed

/-- Claim C2: the identity and zero-padding parts hold, but the claim's
third part fails on the code.  For a clip strictly longer than the target but
no longer than one grain (here the two-sample clip `[1, 2]` against target
length one), `compress` reaches `grains.last().unwrap()` on an empty vector
and panics (modelled by `none`) instead of producing a clip of the target
length. -/
theorem normalize_sample_length_panics_on_single_chunk :
    normalize_sample_length [1, 2] 1 = none := by
  have h2 : ¬((1 : ℝ) / 2 ≤ 0 ∨ 1 < (1 : ℝ) / 2) := by norm_num
  simp only [normalize_sample_length, List.length_cons, List.length_nil]
  norm_num
  rw [show ((1 : ℝ) / 2) = (1 : ℝ) / (2 : ℝ) by norm_num]
  simp only [compress]
  norm_num
  rw [chunks]
  norm_num [SAMPLES_PER_GRAIN]
  rw [chunks]
  simp

mutual

/-- Embedding of `Number` from oscillator/lfo.rs: a modulation value, either a
constant or driven by a low-frequency oscillator, with an affine wrapper
`mul * raw + plus`. -/
inductive Number where
  | num (value plus mul : ℝ)
  | osc (oscillator : LFO) (plus mul : ℝ)

/-- Embedding of `LFO` from oscillator/lfo.rs: a wave function together with
its own phase accumulator. -/
inductive LFO where
  | mk (wave_function : WaveFunction) (phase : ℝ)

/-- Embedding of `WaveFunction` from oscillator/lfo.rs.  The noise variants
carry the stream of draws taken from the global random generator, with a
cursor, as their entropy source. -/
inductive WaveFunction where
  | sine (frequency amplitude phase : Number)
  | square (frequency amplitude phase : Number)
  | triangle (frequency amplitude phase : Number)
  | sawtooth (frequency amplitude phase : Number)
  | whiteNoise (amplitude : Number) (stream : ℕ → ℝ) (pos : ℕ)
  | pinkNoise (amplitude : Number) (generators : List ℝ) (call_count : ℕ)
      (stream : ℕ → ℝ) (pos : ℕ)

end

/-- Embedding of `poly_blep` from oscillator/lfo.rs: the polynomial
band-limited step correction applied near a phase wrap. -/
def poly_blep (phase phase_increment : ℝ) : ℝ :=
  if phase < phase_increment then
    let t := phase / phase_increment;
    -t * t + 2 * t - 1
  else if phase > 1 - phase_increment then
    let t := (phase - 1) / phase_increment;
    t * t + 2 * t + 1
  else 0

section

variable (SR : ℝ)

mutual

/-- Embedding of `Number::next_value`: read the driving oscillator (if any)
and apply the affine wrapper; returns the value and the advanced state. -/
def Number.next_value : Number → ℝ × Number
  | .num v p m => (m * v + p, .num v p m)
  | .osc l p m =>
    let r := LFO.next_value l
    (m * r.1 + p, .osc r.2 p m)

/-- Embedding of `LFO::next_value`: advance the wrapped wave function by one
sample tick `dt = 1 / SAMPLE_RATE` against the stored phase accumulator. -/
def LFO.next_value : LFO → ℝ × LFO
  | .mk wf ph =>
    let r := WaveFunction.next_value wf ph (1 / SR)
    (r.1, .mk r.2.1 r.2.2)

/-- Embedding of `WaveFunction::next_value`: produce one sample, advancing the
caller-owned phase accumulator by `2π·f·dt` modulo `2π`, reading the parameter
modulation values in exactly the source's order per variant.  Returns
(value, updated wave function, updated phase accumulator). -/
def WaveFunction.next_value : WaveFunction → ℝ → ℝ → ℝ × WaveFunction × ℝ
  | .sine f a p, acc, dt =>
    let rf := Number.next_value f
    let ra := Number.next_value a
    let rp := Number.next_value p
    let acc1 := fmod (acc + 2 * Real.pi * rf.1 * dt) (2 * Real.pi)
    (ra.1 * Real.sin (acc1 + rp.1), .sine rf.2 ra.2 rp.2, acc1)
  | .square f a p, acc, dt =>
    let rf := Number.next_value f
    let acc1 := fmod (acc + 2 * Real.pi * rf.1 * dt) (2 * Real.pi)
    let rp := Number.next_value p
    let np := Int.fract ((acc1 + rp.1) / (2 * Real.pi))
    let base : ℝ := if np < 0.5 then 1 else -1
    let phase_increment := rf.1 / SR
    let shifted := fmod (np + 0.5) 1
    let sq := base + poly_blep np phase_increment - poly_blep shifted phase_increment
    let ra := Number.next_value a
    (ra.1 * sq, .square rf.2 ra.2 rp.2, acc1)
  | .triangle f a p, acc, dt =>
    let rf := Number.next_value f
    let ra := Number.next_value a
    let rp := Number.next_value p
    let acc1 := fmod (acc + 2 * Real.pi * rf.1 * dt) (2 * Real.pi)
    let np := Int.fract ((acc1 + rp.1) / (2 * Real.pi))
    let tri : ℝ := if np < 0.5 then 4 * np - 1 else 3 - 4 * np
    (ra.1 * tri, .triangle rf.2 ra.2 rp.2, acc1)
  | .sawtooth f a p, acc, dt =>
    let rf := Number.next_value f
    let ra := Number.next_value a
    let rp := Number.next_value p
    let acc1 := fmod (acc + 2 * Real.pi * rf.1 * dt) (2 * Real.pi)
    let np := Int.fract ((acc1 + rp.1) / (2 * Real.pi))
    let phase_increment := rf.1 / SR
    let saw := 2 * np - 1 - poly_blep np phase_increment
    (ra.1 * saw, .sawtooth rf.2 ra.2 rp.2, acc1)
  | .whiteNoise a s pos, acc, _dt =>
    let ra := Number.next_value a
    (ra.1 * s pos, .whiteNoise ra.2 s (pos + 1), acc)
  | .pinkNoise a gens cc s pos, acc, _dt =>
    let ra := Number.next_value a
    let cc1 := if 2 ^ gens.length ≤ cc then 0 else cc
    let upd := (List.range gens.length).foldl
      (fun (st : List ℝ × ℕ) i =>
        if cc1 % 2 ^ i = 0 then (st.1.set i (s st.2), st.2 + 1) else st)
      (gens, pos)
    let noise := upd.1.sum * (1 / Real.sqrt 3)
    (ra.1 * noise, .pinkNoise ra.2 upd.1 (cc1 + 1) s upd.2, acc)

end

end

/-- Normalized phase computed by the Square and Sawtooth branches of
`WaveFunction::next_value` after the phase-accumulator update: wrap the
accumulator modulo 2π, add the phase offset, divide by 2π and take the
fractional part. -/
def normalized_phase (SR : ℝ) (f pn : Number) (acc dt : ℝ) : ℝ :=
  Int.fract ((fmod (acc + 2 * Real.pi * (Number.next_value SR f).1 * dt) (2 * Real.pi)
    + (Number.next_value SR pn).1) / (2 * Real.pi))

/-- Claim C6: for phase increment 0 < d < 0.5 the PolyBLEP correction is
piecewise `-t^2 + 2t - 1` (t = p/d) below d, `t^2 + 2t + 1` (t = (p-1)/d)
above 1 - d, and 0 between; Sawtooth subtracts the correction at its
discontinuity and Square adds it at the rising edge and subtracts it at the
half-period falling edge. -/
theorem poly_blep_spec (SR p d : ℝ) (hd0 : 0 < d) (hd : d < 1/2) :
    (p < d → poly_blep p d = -(p/d) * (p/d) + 2 * (p/d) - 1) ∧
    (1 - d < p → poly_blep p d = ((p-1)/d) * ((p-1)/d) + 2 * ((p-1)/d) + 1) ∧
    (¬(p < d) → ¬(1 - d < p) → poly_blep p d = 0) ∧
    (∀ (f a pn : Number) (acc dt : ℝ),
      (WaveFunction.next_value SR (.sawtooth f a pn) acc dt).1
        = (Number.next_value SR a).1 *
          (2 * normalized_phase SR f pn acc dt - 1
            - poly_blep (normalized_phase SR f pn acc dt)
                ((Number.next_value SR f).1 / SR))) ∧
    (∀ (f a pn : Number) (acc dt : ℝ),
      (WaveFunction.next_value SR (.square f a pn) acc dt).1
        = (Number.next_value SR a).1 *
          ((if normalized_phase SR f pn acc dt < 0.5 then (1 : ℝ) else -1)
            + poly_blep (normalized_phase SR f pn acc dt)
                ((Number.next_value SR f).1 / SR)
            - poly_blep (fmod (normalized_phase SR f pn acc dt + 0.5) 1)
                ((Number.next_value SR f).1 / SR))) := by
  refine ⟨?_, ?_, ?_, ?_, ?_⟩
  · intro hp
    simp only [poly_blep, if_pos hp]
  · intro hp
    have h1 : ¬(p < d) := by
      push_neg
      linarith
    simp only [poly_blep, if_neg h1, if_pos hp]
  · intro h1 h2
    simp only [poly_blep, if_neg h1, if_neg h2]
  · intro f a pn acc dt
    simp only [WaveFunction.next_value, normalized_phase]
  · intro f a pn acc dt
    simp only [WaveFunction.next_value, normalized_phase]

/-- Concrete instance of the C6 theorem: at phase 1/8 and increment 1/4 the
correction takes the near-zero branch value. -/
theorem poly_blep_spec_witness :
    poly_blep (1/8) (1/4)
      = -((1/8)/(1/4)) * ((1/8)/(1/4)) + 2 * ((1/8)/(1/4)) - 1 :=
  (poly_blep_spec 48000 (1/8) (1/4) (by norm_num) (by norm_num)).1 (by norm_num)

/-- Embedding of `OnePoleFilter` from effects.rs: its only state is the
previous (pre-saturation) output. -/
structure OnePoleFilter where
  previous_output : ℝ

/-- Embedding of `OnePoleFilter::process_sample`: a one-pole lag whose raw
output is stored as the new state, followed by a tanh soft clip on the
returned value. -/
def OnePoleFilter.process_sample (p : OnePoleFilter) (sample cutoff : ℝ) :
    ℝ × OnePoleFilter :=
  let output := cutoff * sample + (1 - cutoff) * p.previous_output
  (Real.tanh (output * 0.7) * 1.4, ⟨output⟩)

/-- Embedding of `FilterType` from effects.rs. -/
inductive FilterType where
  | lowPass
  | highPass
  | bandPass
  | notch

/-- Embedding of `Filter` from effects.rs.  The `stage_outputs` vector is
fully overwritten on every `process_sample` call before it is read, so it is
modelled as the locally computed stage-output list rather than as a field. -/
structure Filter where
  mode : FilterType
  cutoff_frequency : Number
  resonance : Number
  poles : List OnePoleFilter

/-- The pole-cascade loop inside `Filter::process_sample`: feed the sample
through each one-pole stage in turn.  Returns the final cascade value, the
updated poles, and the per-stage (saturated) outputs written to
`stage_outputs[1..]`. -/
def Filter.run_poles (poles : List OnePoleFilter) (cutoff sample : ℝ) :
    ℝ × List OnePoleFilter × List ℝ :=
  match poles with
  | [] => (sample, [], [])
  | p :: rest =>
    let r := p.process_sample sample cutoff
    let rr := Filter.run_poles rest cutoff r.1
    (rr.1, r.2 :: rr.2.1, r.1 :: rr.2.2)

/-- The readout match at the end of `Filter::process_sample`, combining the
stage outputs according to the filter mode.  `stage_outputs` has the original
input at index zero and the stage outputs at indices 1..num_poles. -/
def Filter.read_output (mode : FilterType) (num_poles : ℕ) (stage_outputs : List ℝ) : ℝ :=
  match mode with
  | .lowPass => (stage_outputs.getLast?).getD 0
  | .highPass =>
    (List.range num_poles).foldl
      (fun hp i => hp + (if i % 2 = 0 then (-1 : ℝ) else 1) * stage_outputs.getD (i + 1) 0)
      (stage_outputs.getD 0 0)
  | .bandPass =>
    let final_output := (stage_outputs.getLast?).getD 0
    if 2 ≤ num_poles then stage_outputs.getD (num_poles / 2) 0 - final_output
    else stage_outputs.getD 0 0 - final_output
  | .notch =>
    let final_output := (stage_outputs.getLast?).getD 0
    let hp := stage_outputs.getD 0 0 - final_output
    (final_output + hp) / 2

/-- The smoothed cutoff coefficient computed inside `Filter::process_sample`
from the cutoff-frequency modulation value: `1 - exp(-2π·fc/SAMPLE_RATE)`. -/
def Filter.cutoff_value (SR : ℝ) (f : Filter) : ℝ :=
  1 - Real.exp (-2 * Real.pi * (Number.next_value SR f.cutoff_frequency).1 / SR)

/-- Embedding of `Filter::process_sample` from effects.rs.  The feedback term
`5.5 · resonance · last_pole.previous_output` is subtracted from the input
exactly when there are four poles; the `assert!` that the resonance lies in
[0, 1] (a panic when violated) is modelled by `none`.  `stage_outputs[0]`
keeps the original input, written before the feedback subtraction. -/
def Filter.process_sample (SR : ℝ) (f : Filter) (sample : ℝ) : Option (ℝ × Filter) :=
  let fb : Option (ℝ × Number) :=
    if f.poles.length = 4 then
      let rres := Number.next_value SR f.resonance
      if 0 ≤ rres.1 ∧ rres.1 ≤ 1 then
        some (sample - 5.5 * rres.1 * ((f.poles.getLast?).getD ⟨0⟩).previous_output, rres.2)
      else none
    else some (sample, f.resonance)
  match fb with
  | none => none
  | some (sample1, res1) =>
    let rcf := Number.next_value SR f.cutoff_frequency
    let cutoff := 1 - Real.exp (-2 * Real.pi * rcf.1 / SR)
    let rr := Filter.run_poles f.poles cutoff sample1
    some (Filter.read_output f.mode f.poles.length (sample :: rr.2.2),
      { f with resonance := res1, cutoff_frequency := rcf.2, poles := rr.2.1 })

/-- Embedding of `Saturation` from effects.rs. -/
structure Saturation where
  target_drive : Number
  actual_drive : ℝ
  mix : Number
  slew_rate : ℝ

/-- Embedding of `Saturation::update_actual_drive`: slew the effective drive
toward the target by at most `slew_rate / SAMPLE_RATE`.  Rust's
`f32::clamp(lo, hi)` is written out as its two comparisons (its panic on
`lo > hi` cannot fire for a nonnegative slew rate). -/
def Saturation.update_actual_drive (SR : ℝ) (sat : Saturation) : Saturation :=
  let rtd := Number.next_value SR sat.target_drive
  let max_change := sat.slew_rate / SR
  let diff := rtd.1 - sat.actual_drive
  let change :=
    if diff < -max_change then -max_change
    else if max_change < diff then max_change
    else diff
  { sat with target_drive := rtd.2, actual_drive := sat.actual_drive + change }

/-- Embedding of `Saturation::process_sample`: slew the drive, use 0.9 of it
for negative samples, soft-clip with tanh, normalize by `2/sqrt(1+drive)`,
and cross-fade with the dry sample by the mix value. -/
def Saturation.process_sample (SR : ℝ) (sat : Saturation) (sample : ℝ) :
    ℝ × Saturation :=
  let sat1 := Saturation.update_actual_drive SR sat
  let drive := if 0 ≤ sample then sat1.actual_drive else sat1.actual_drive * 0.9
  let scaled := sample * drive
  let fd := Real.tanh scaled
  let gain := 2 / Real.sqrt (1 + drive)
  let wet := fd * gain
  let rmix := Number.next_value SR sat1.mix
  (rmix.1 * wet + (1 - rmix.1) * sample, { sat1 with mix := rmix.2 })

/-- Embedding of `TapeDelay` from effects.rs.  `capacity` models the ring
vector's allocation (`Vec::with_capacity(read_offset + extra_space)`), taken
to be exactly the requested size. -/
structure TapeDelay where
  buffer : List ℝ
  read_delay : ℝ
  extra_space : ℕ
  capacity : ℕ
  mix : Number
  feedback : Number
  wow_oscillator : Number
  flutter_oscillator : Number
  low_pass_filter : Filter
  saturation : Saturation

/-- Embedding of `TapeDelay::push_sample_to_buffer`: drop the oldest sample
once the buffer reaches `capacity - extra_space`, then append. -/
def TapeDelay.push_sample_to_buffer (td : TapeDelay) (sample : ℝ) : TapeDelay :=
  let buf :=
    if td.capacity - td.extra_space ≤ td.buffer.length then td.buffer.drop 1
    else td.buffer
  { td with buffer := buf ++ [sample] }

/-- Embedding of `TapeDelay::read_sample_from_buffer`: offset the nominal read
index (`extra_space`) by the wow and flutter oscillators converted from
seconds to samples; indexing out of bounds is a Rust panic, hence `none`. -/
def TapeDelay.read_sample_from_buffer (SR : ℝ) (td : TapeDelay) :
    Option (ℝ × TapeDelay) :=
  let read_index := td.extra_space
  let rwow := Number.next_value SR td.wow_oscillator
  let rflut := Number.next_value SR td.flutter_oscillator
  let wow_samples := rwow.1 * SR
  let flutter_samples := rflut.1 * SR
  let idx := fToUsize ((read_index : ℝ) + wow_samples + flutter_samples)
  match td.buffer.get? idx with
  | none => none
  | some v =>
    some (v, { td with wow_oscillator := rwow.2, flutter_oscillator := rflut.2 })

/-- The tail of `TapeDelay::process_sample` after the delayed tap has been
selected: saturate and low-pass filter the tap, write the dry input plus
`feedback · processed` back to the buffer, and cross-fade dry and processed
by the mix value.  The feedback and mix `assert!`s are modelled by `none`. -/
def TapeDelay.process_with_tap (SR : ℝ) (td1 : TapeDelay) (sample delay_sample : ℝ) :
    Option (ℝ × TapeDelay) :=
  let rsat := Saturation.process_sample SR td1.saturation delay_sample
  match Filter.process_sample SR td1.low_pass_filter rsat.1 with
  | none => none
  | some (processed, lpf1) =>
    let rfb := Number.next_value SR td1.feedback
    if 0 ≤ rfb.1 ∧ rfb.1 ≤ 1 then
      let to_buffer := sample + rfb.1 * processed
      let td2 := TapeDelay.push_sample_to_buffer
        { td1 with
          saturation := rsat.2
          low_pass_filter := lpf1
          feedback := rfb.2 } to_buffer
      let rmix := Number.next_value SR td2.mix
      if 0 ≤ rmix.1 ∧ rmix.1 ≤ 1 then
        some (rmix.1 * processed + (1 - rmix.1) * sample, { td2 with mix := rmix.2 })
      else none
    else none

/-- Embedding of `TapeDelay::process_sample`: a buffer whose duration is
shorter than the nominal read delay yields a silent tap of exactly 0.0 (not
an error); otherwise the tap is read from the buffer at the wow/flutter
offset.  The rest is `TapeDelay.process_with_tap`. -/
def TapeDelay.process_sample (SR : ℝ) (td : TapeDelay) (sample : ℝ) :
    Option (ℝ × TapeDelay) :=
  let buffer_duration := (td.buffer.length : ℝ) / SR
  let rds : Option (ℝ × TapeDelay) :=
    if buffer_duration < td.read_delay then some (0, td)
    else TapeDelay.read_sample_from_buffer SR td
  match rds with
  | none => none
  | some (delay_sample, td1) => TapeDelay.process_with_tap SR td1 sample delay_sample

/-- Embedding of `OscillatorChange` from effects.rs. -/
inductive OscillatorChange where
  | frequency (freq : ℝ)

/-- Embedding of `EffectInput` from sound.rs. -/
structure EffectInput where
  grain : Grain
  time_since_start_of_beat : ℝ

/-- Embedding of `EffectOutput` from effects.rs. -/
structure EffectOutput where
  grain : Grain
  oscillator_changes : List OscillatorChange

/-- The effect kinds implemented in effects.rs, as a closed sum. -/
inductive Effect where
  | volume (n : Number)
  | filter (f : Filter)
  | saturation (s : Saturation)
  | tapeDelay (t : TapeDelay)

/-- Per-sample processing of a grain with a state-threading, possibly
panicking step function: the shape of the per-sample loops inside every
`Effect::apply` implementation. -/
def processGrain {σ : Type} (step : σ → ℝ → Option (ℝ × σ)) :
    σ → Grain → Option (Grain × σ)
  | st, [] => some ([], st)
  | st, x :: xs =>
    match step st x with
    | none => none
    | some (y, st1) =>
      match processGrain step st1 xs with
      | none => none
      | some (ys, st2) => some (y :: ys, st2)

/-- Embedding of the `Effect::apply` implementations from effects.rs: each
processes the grain sample by sample against its own state and emits no
oscillator changes. -/
def Effect.apply (SR : ℝ) : Effect → EffectInput → Option (EffectOutput × Effect)
  | .volume n, input =>
    match processGrain (fun (st : Number) x =>
        let r := Number.next_value SR st
        some (x * r.1, r.2)) n input.grain with
    | none => none
    | some (g, n1) => some ({ grain := g, oscillator_changes := [] }, .volume n1)
  | .filter f, input =>
    match processGrain (fun st x => Filter.process_sample SR st x) f input.grain with
    | none => none
    | some (g, f1) => some ({ grain := g, oscillator_changes := [] }, .filter f1)
  | .saturation s, input =>
    match processGrain (fun st x => some (Saturation.process_sample SR st x)) s
        input.grain with
    | none => none
    | some (g, s1) => some ({ grain := g, oscillator_changes := [] }, .saturation s1)
  | .tapeDelay t, input =>
    match processGrain (fun st x => TapeDelay.process_sample SR st x) t input.grain with
    | none => none
    | some (g, t1) => some ({ grain := g, oscillator_changes := [] }, .tapeDelay t1)

/-- A four-pole low-pass filter whose resonance modulation value is the
constant 0.95. -/
def resonance95_filter : Filter :=
  { mode := .lowPass
    cutoff_frequency := Number.num 100 0 1
    resonance := Number.num 0.95 0 1
    poles := [⟨0⟩, ⟨0⟩, ⟨0⟩, ⟨0⟩] }

/-- Claim C4, as stated, is false: the four-pole filter's assertion is
`0 ≤ resonance ≤ 1`, not `resonance < 0.95`, so a resonance of exactly 0.95
passes the assertion and the sample is processed rather than aborting. -/
theorem filter_accepts_resonance_095 :
    (Filter.process_sample 48000 resonance95_filter 1).isSome = true := by
  simp only [Filter.process_sample, resonance95_filter, Number.next_value]
  norm_num

/-- Claim C4, amended: in the four-pole configuration the resonance read from
its modulation value is asserted to lie in [0, 1]; per-sample processing
aborts (the assertion fails) exactly when that value falls outside [0, 1]. -/
theorem filter_resonance_assert_range (SR : ℝ) (f : Filter) (s : ℝ)
    (h4 : f.poles.length = 4) :
    Filter.process_sample SR f s = none
      ↔ ¬(0 ≤ (Number.next_value SR f.resonance).1
            ∧ (Number.next_value SR f.resonance).1 ≤ 1) := by
  by_cases hc : 0 ≤ (Number.next_value SR f.resonance).1
      ∧ (Number.next_value SR f.resonance).1 ≤ 1 <;>
    simp [Filter.process_sample, h4, hc]

/-- Concrete instance of the amended C4 theorem: a four-pole filter whose
resonance value is the constant 2 fails the assertion. -/
theorem filter_resonance_assert_range_witness :
    Filter.process_sample 48000
      { mode := .lowPass
        cutoff_frequency := Number.num 100 0 1
        resonance := Number.num 2 0 1
        poles := [⟨0⟩, ⟨0⟩, ⟨0⟩, ⟨0⟩] } 1 = none := by
  rw [filter_resonance_assert_range 48000 _ 1 (by simp)]
  norm_num [Number.next_value]

/-- Claim C5: the resonant feedback `5.5 · resonance · last_pole_output` is
subtracted from the input before the pole cascade exactly in the four-pole
configuration (given the resonance assertion passes); with any other pole
count the input sample reaches the pole cascade unmodified. -/
theorem filter_feedback_only_four_poles (SR : ℝ) (f : Filter) (s : ℝ) :
    (f.poles.length = 4 →
      0 ≤ (Number.next_value SR f.resonance).1 →
      (Number.next_value SR f.resonance).1 ≤ 1 →
      Filter.process_sample SR f s
        = some (Filter.read_output f.mode f.poles.length
            (s :: (Filter.run_poles f.poles (Filter.cutoff_value SR f)
              (s - 5.5 * (Number.next_value SR f.resonance).1
                * ((f.poles.getLast?).getD ⟨0⟩).previous_output)).2.2),
          { f with
            resonance := (Number.next_value SR f.resonance).2
            cutoff_frequency := (Number.next_value SR f.cutoff_frequency).2
            poles := (Filter.run_poles f.poles (Filter.cutoff_value SR f)
              (s - 5.5 * (Number.next_value SR f.resonance).1
                * ((f.poles.getLast?).getD ⟨0⟩).previous_output)).2.1 })) ∧
    (f.poles.length ≠ 4 →
      Filter.process_sample SR f s
        = some (Filter.read_output f.mode f.poles.length
            (s :: (Filter.run_poles f.poles (Filter.cutoff_value SR f) s).2.2),
          { f with
            cutoff_frequency := (Number.next_value SR f.cutoff_frequency).2
            poles := (Filter.run_poles f.poles (Filter.cutoff_value SR f) s).2.1 })) := by
  constructor
  · intro h4 hr0 hr1
    simp [Filter.process_sample, Filter.cutoff_value, h4, hr0, hr1]
  · intro h4
    simp [Filter.process_sample, Filter.cutoff_value, h4]

/-- A four-pole high-pass filter with constant resonance 0.5, used to
instantiate the C5 theorem. -/
def c5_filter : Filter :=
  { mode := .highPass
    cutoff_frequency := Number.num 500 0 1
    resonance := Number.num 0.5 0 1
    poles := [⟨1⟩, ⟨2⟩, ⟨3⟩, ⟨4⟩] }

/-- Concrete instance of the C5 theorem: with four poles the cascade input is
the sample minus the feedback term. -/
theorem filter_feedback_only_four_poles_witness :
    Filter.process_sample 48000 c5_filter 1
      = some (Filter.read_output c5_filter.mode c5_filter.poles.length
          (1 :: (Filter.run_poles c5_filter.poles (Filter.cutoff_value 48000 c5_filter)
            (1 - 5.5 * (Number.next_value 48000 c5_filter.resonance).1
              * ((c5_filter.poles.getLast?).getD ⟨0⟩).previous_output)).2.2),
        { c5_filter with
          resonance := (Number.next_value 48000 c5_filter.resonance).2
          cutoff_frequency := (Number.next_value 48000 c5_filter.cutoff_frequency).2
          poles := (Filter.run_poles c5_filter.poles (Filter.cutoff_value 48000 c5_filter)
            (1 - 5.5 * (Number.next_value 48000 c5_filter.resonance).1
              * ((c5_filter.poles.getLast?).getD ⟨0⟩).previous_output)).2.1 }) :=
  (filter_feedback_only_four_poles 48000 c5_filter 1).1
    (by simp [c5_filter])
    (by norm_num [c5_filter, Number.next_value])
    (by norm_num [c5_filter, Number.next_value])

/-- Claim C7: per processed sample the effective drive moves toward the
target by at most `slew_rate / SAMPLE_RATE` without overshooting it;
negative samples use 0.9 of the effective drive while nonnegative samples
use it in full; and the output is
`mix · (tanh(sample·drive) · 2/sqrt(1+drive)) + (1−mix) · sample`. -/
theorem saturation_process_sample_spec (SR : ℝ) (sat : Saturation) (s : ℝ)
    (hslew : 0 ≤ sat.slew_rate) (hSR : 0 < SR) :
    |(Saturation.update_actual_drive SR sat).actual_drive - sat.actual_drive|
        ≤ sat.slew_rate / SR ∧
    min sat.actual_drive (Number.next_value SR sat.target_drive).1
        ≤ (Saturation.update_actual_drive SR sat).actual_drive ∧
    (Saturation.update_actual_drive SR sat).actual_drive
        ≤ max sat.actual_drive (Number.next_value SR sat.target_drive).1 ∧
    (Saturation.process_sample SR sat s).1
      = (Number.next_value SR sat.mix).1
          * (Real.tanh (s * (if 0 ≤ s
                then (Saturation.update_actual_drive SR sat).actual_drive
                else (Saturation.update_actual_drive SR sat).actual_drive * 0.9))
            * (2 / Real.sqrt (1 + (if 0 ≤ s
                then (Saturation.update_actual_drive SR sat).actual_drive
                else (Saturation.update_actual_drive SR sat).actual_drive * 0.9))))
        + (1 - (Number.next_value SR sat.mix).1) * s := by
  have hmc : 0 ≤ sat.slew_rate / SR := div_nonneg hslew (le_of_lt hSR)
  refine ⟨?_, ?_, ?_, ?_⟩
  · simp only [Saturation.update_actual_drive]
    split
    · rw [abs_of_nonpos (by linarith)]
      ring_nf
      linarith
    · split
      · rw [abs_of_nonneg (by linarith)]
        ring_nf
        linarith
      · rename_i h1 h2
        push_neg at h1 h2
        rw [abs_le]
        constructor <;> linarith
  · simp only [Saturation.update_actual_drive, min_le_iff]
    split
    · rename_i h1
      right
      linarith
    · split
      · rename_i h1 h2
        left
        linarith
      · rename_i h1 h2
        push_neg at h1 h2
        right
        linarith
  · simp only [Saturation.update_actual_drive, le_max_iff]
    split
    · rename_i h1
      left
      linarith
    · split
      · rename_i h1 h2
        right
        linarith
      · rename_i h1 h2
        push_neg at h1 h2
        right
        linarith
  · simp only [Saturation.process_sample, Saturation.update_actual_drive]

/-- Concrete instance of the C7 theorem at a unit slew rate, unit sample
rate, constant target drive 2, initial drive 0 and a unit input sample. -/
theorem saturation_process_sample_spec_witness :
    |(Saturation.update_actual_drive 1
        ⟨Number.num 2 0 1, 0, Number.num 0.5 0 1, 1⟩).actual_drive - 0| ≤ 1 / 1 ∧
    min 0 (Number.next_value 1 (Number.num 2 0 1)).1
        ≤ (Saturation.update_actual_drive 1
            ⟨Number.num 2 0 1, 0, Number.num 0.5 0 1, 1⟩).actual_drive ∧
    (Saturation.update_actual_drive 1
        ⟨Number.num 2 0 1, 0, Number.num 0.5 0 1, 1⟩).actual_drive
        ≤ max 0 (Number.next_value 1 (Number.num 2 0 1)).1 ∧
    (Saturation.process_sample 1 ⟨Number.num 2 0 1, 0, Number.num 0.5 0 1, 1⟩ 1).1
      = (Number.next_value 1 (Number.num 0.5 0 1)).1
          * (Real.tanh (1 * (if (0 : ℝ) ≤ 1
                then (Saturation.update_actual_drive 1
                    ⟨Number.num 2 0 1, 0, Number.num 0.5 0 1, 1⟩).actual_drive
                else (Saturation.update_actual_drive 1
                    ⟨Number.num 2 0 1, 0, Number.num 0.5 0 1, 1⟩).actual_drive * 0.9))
            * (2 / Real.sqrt (1 + (if (0 : ℝ) ≤ 1
                then (Saturation.update_actual_drive 1
                    ⟨Number.num 2 0 1, 0, Number.num 0.5 0 1, 1⟩).actual_drive
                else (Saturation.update_actual_drive 1
                    ⟨Number.num 2 0 1, 0, Number.num 0.5 0 1, 1⟩).actual_drive * 0.9))))
        + (1 - (Number.next_value 1 (Number.num 0.5 0 1)).1) * 1 :=
  saturation_process_sample_spec 1 ⟨Number.num 2 0 1, 0, Number.num 0.5 0 1, 1⟩ 1
    (by norm_num) (by norm_num)

/-- Embedding of `SampleInput` from sample.rs: the only input is Trigger. -/
inductive SampleInput where
  | trigger

/-- Embedding of `SampleInputAtTime` from sample.rs. -/
structure SampleInputAtTime where
  input : SampleInput
  time : ℝ

/-- Embedding of `Sample` from sample.rs (the re-triggerable clip player
with a play flag). -/
structure Sample where
  samples : List ℝ
  secs_per_beat : ℝ
  index : ℕ
  effects : List Effect
  secs_since_start : ℝ
  inputs : List SampleInputAtTime
  play : Bool

/-- Embedding of `Sample::handle_input`: a Trigger resets the cursor to zero
and starts playback. -/
def Sample.handle_input (s : Sample) (input : SampleInput) : Sample :=
  match input with
  | .trigger => { s with index := 0, play := true }

/-- Embedding of `Sample::update_inputs`: fire at most the first queued input
whose time has come, removing it from the queue. -/
def Sample.update_inputs (s : Sample) : Sample :=
  match s.inputs with
  | [] => s
  | i :: rest =>
    if i.time ≤ s.secs_since_start then
      { s.handle_input i.input with inputs := rest }
    else s

/-- Embedding of `Sample::next_sample`: silent when not playing; otherwise
pre-increment the cursor, deactivate (silently) at the clip's end, else emit
the clip's element at the incremented cursor. -/
def Sample.next_sample (s : Sample) : ℝ × Sample :=
  if s.play = false then (0, s)
  else
    let i := s.index + 1
    if s.samples.length ≤ i then (0, { s with index := i, play := false })
    else (s.samples.getD i 0, { s with index := i })

/-- Iterated `Sample::next_sample`: the next n emitted values and the final
player state. -/
def Sample.next_samples : ℕ → Sample → List ℝ × Sample
  | 0, s => ([], s)
  | n + 1, s =>
    let r := Sample.next_sample s
    let rr := Sample.next_samples n r.2
    (r.1 :: rr.1, rr.2)

lemma next_samples_of_not_play (smp : Sample) (hplay : smp.play = false) :
    ∀ n, Sample.next_samples n smp = (List.replicate n 0, smp) := by
  intro n
  induction n with
  | zero => simp [Sample.next_samples]
  | succ m ih =>
    simp [Sample.next_samples, Sample.next_sample, hplay, ih, List.replicate_succ]

/-- Claim C9: exhaustion is silence, not an error.  A tape delay whose buffer
is shorter than the nominal read delay uses a delayed tap of exactly 0.0 and
still produces an output (given its standing invariants: a non-four-pole
internal low-pass and feedback/mix values in [0, 1], as built by
`TapeDelay::new`); a sample player that is not playing emits exactly 0.0 on
every call with an unchanged state, and one whose cursor has reached the end
of its clip deactivates and emits exactly 0.0 on every subsequent call. -/
theorem exhaustion_is_silence (SR : ℝ) (td : TapeDelay) (s : ℝ) (smp : Sample)
    (hshort : (td.buffer.length : ℝ) / SR < td.read_delay)
    (hlpf : td.low_pass_filter.poles.length ≠ 4)
    (hfb : 0 ≤ (Number.next_value SR td.feedback).1
      ∧ (Number.next_value SR td.feedback).1 ≤ 1)
    (hmix : 0 ≤ (Number.next_value SR td.mix).1
      ∧ (Number.next_value SR td.mix).1 ≤ 1) :
    (TapeDelay.process_sample SR td s = TapeDelay.process_with_tap SR td s 0
      ∧ (TapeDelay.process_sample SR td s).isSome = true) ∧
    (smp.play = false →
      ∀ n, Sample.next_samples n smp = (List.replicate n 0, smp)) ∧
    (smp.play = true → smp.samples.length ≤ smp.index + 1 →
      ∀ n, Sample.next_samples (n + 1) smp
        = (List.replicate (n + 1) 0,
            { smp with index := smp.index + 1, play := false })) := by
  have htap : TapeDelay.process_sample SR td s = TapeDelay.process_with_tap SR td s 0 := by
    simp [TapeDelay.process_sample, hshort]
  refine ⟨⟨htap, ?_⟩, ?_, ?_⟩
  · rw [htap]
    simp [TapeDelay.process_with_tap, Filter.process_sample, hlpf,
      TapeDelay.push_sample_to_buffer, hfb.1, hfb.2, hmix.1, hmix.2]
  · intro hplay n
    exact next_samples_of_not_play smp hplay n
  · intro hplay hend n
    simp only [Sample.next_samples, Sample.next_sample, hplay, Bool.true_eq_false,
      if_false, if_pos hend]
    rw [next_samples_of_not_play _ (by simp) n]
    simp [List.replicate_succ]

/-- A concrete tape delay with an empty buffer, one-second read delay,
one-pole internal low-pass and constant feedback/mix 0.1, as in
`TapeDelay::light`. -/
def c9_delay : TapeDelay :=
  { buffer := []
    read_delay := 1
    extra_space := 0
    capacity := 10
    mix := Number.num 0.1 0 1
    feedback := Number.num 0.1 0 1
    wow_oscillator := Number.num 0 0 1
    flutter_oscillator := Number.num 0 0 1
    low_pass_filter :=
      { mode := .lowPass
        cutoff_frequency := Number.num 6000 0 1
        resonance := Number.num 0.3 0 1
        poles := [⟨0⟩] }
    saturation := ⟨Number.num 2 0 1, 2/3, Number.num 0.7 0 1, 0.5⟩ }

/-- A concrete sample player that has deactivated after exhausting its clip. -/
def c9_sample : Sample :=
  { samples := [1, 2, 3]
    secs_per_beat := 1
    index := 3
    effects := []
    secs_since_start := 1
    inputs := []
    play := false }

/-- Concrete instance of the C9 theorem: an empty delay buffer against a
one-second read delay taps silence without error, and an exhausted sample
player emits zeros forever. -/
theorem exhaustion_is_silence_witness :
    (TapeDelay.process_sample 1 c9_delay 1 = TapeDelay.process_with_tap 1 c9_delay 1 0
      ∧ (TapeDelay.process_sample 1 c9_delay 1).isSome = true) ∧
    (c9_sample.play = false →
      ∀ n, Sample.next_samples n c9_sample = (List.replicate n 0, c9_sample)) ∧
    (c9_sample.play = true → c9_sample.samples.length ≤ c9_sample.index + 1 →
      ∀ n, Sample.next_samples (n + 1) c9_sample
        = (List.replicate (n + 1) 0,
            { c9_sample with index := c9_sample.index + 1, play := false })) :=
  exhaustion_is_silence 1 c9_delay 1 c9_sample
    (by norm_num [c9_delay])
    (by norm_num [c9_delay])
    (by norm_num [c9_delay, Number.next_value])
    (by norm_num [c9_delay, Number.next_value])

/-- Claim C10: after a Trigger resets the cursor, the very next call
pre-increments before reading, so the first emitted value is the clip's
element at index 1; every emitted value is either silence or the element at
a cursor of at least 1 (index 0 is never played); and playback deactivates
with a zero output once the cursor reaches the clip length. -/
theorem sample_trigger_skips_first_sample (s : Sample) :
    (2 ≤ s.samples.length →
      (Sample.next_sample (Sample.handle_input s SampleInput.trigger)).1
          = s.samples.getD 1 0
        ∧ (Sample.next_sample (Sample.handle_input s SampleInput.trigger)).2.index = 1) ∧
    (∀ v s1, Sample.next_sample s = (v, s1)
      → v = 0 ∨ (1 ≤ s1.index ∧ v = s1.samples.getD s1.index 0)) ∧
    (s.play = true → s.samples.length ≤ s.index + 1 →
      Sample.next_sample s = (0, { s with index := s.index + 1, play := false })) := by
  refine ⟨?_, ?_, ?_⟩
  · intro h2
    constructor <;>
      simp [Sample.next_sample, Sample.handle_input, Nat.not_le.mpr (by omega : 1 < s.samples.length)]
  · intro v s1 h
    by_cases hplay : s.play = false
    · left
      simp [Sample.next_sample, hplay] at h
      exact h.1.symm
    · simp only [Sample.next_sample, hplay, if_false] at h
      by_cases hend : s.samples.length ≤ s.index + 1
      · left
        rw [if_pos hend] at h
        exact (Prod.mk.injEq _ _ _ _ ▸ h).1.symm
      · right
        rw [if_neg hend] at h
        obtain ⟨hv, hs1⟩ := Prod.mk.injEq _ _ _ _ ▸ h
        subst hs1
        refine ⟨?_, hv.symm⟩
        show 1 ≤ s.index + 1
        omega
  · intro hplay hend
    simp [Sample.next_sample, hplay, hend]

/-- Concrete instance of the C10 theorem on a three-sample clip: triggering
plays the element at index 1 (the value 20) next, never index 0. -/
theorem sample_trigger_skips_first_sample_witness :
    (Sample.next_sample (Sample.handle_input
          { samples := [10, 20, 30], secs_per_beat := 1, index := 2, effects := [],
            secs_since_start := 0, inputs := [], play := false }
          SampleInput.trigger)).1
        = ([10, 20, 30] : List ℝ).getD 1 0
      ∧ (Sample.next_sample (Sample.handle_input
          { samples := [10, 20, 30], secs_per_beat := 1, index := 2, effects := [],
            secs_since_start := 0, inputs := [], play := false }
          SampleInput.trigger)).2.index = 1 :=
  (sample_trigger_skips_first_sample _).1 (by norm_num)

/-- Embedding of `OscillatorInput` from oscillator.rs: a simplified form of
MIDI. -/
inductive OscillatorInput where
  | press (freq : ℝ)
  | pressSame
  | release

/-- Embedding of `OscillatorInputAtTime` from oscillator.rs. -/
structure OscillatorInputAtTime where
  input : OscillatorInput
  time : ℝ

/-- Embedding of `OscillatorInputIterator` from oscillator/input.rs. -/
structure OscillatorInputIterator where
  inputs : List OscillatorInputAtTime
  index : ℕ
  total_duration : ℝ
  repeat_delay : Option ℝ

/-- Embedding of `OscillatorInputIterator::repeat_inputs`: when a repeat
delay is configured, shift every event by the total duration plus the delay
and restart the cursor. -/
def OscillatorInputIterator.repeat_inputs (it : OscillatorInputIterator) :
    OscillatorInputIterator :=
  match it.repeat_delay with
  | none => it
  | some d =>
    { it with
      inputs := it.inputs.map (fun i => { i with time := i.time + it.total_duration + d })
      index := 0 }

/-- Embedding of `OscillatorInputIterator::next`: return the event at the
cursor if its time has come (advancing the cursor, and repeating the inputs
once the queue is exhausted), else nothing. -/
def OscillatorInputIterator.next (it : OscillatorInputIterator) (secs_since_start : ℝ) :
    Option OscillatorInputAtTime × OscillatorInputIterator :=
  if it.inputs.length ≤ it.index then (none, it)
  else
    let index_input := it.inputs.getD it.index ⟨.release, 0⟩
    if index_input.time ≤ secs_since_start then
      let it1 := { it with index := it.index + 1 }
      let it2 := if it.inputs.length ≤ it1.index then it1.repeat_inputs else it1
      (some index_input, it2)
    else (none, it)

/-- Embedding of `OscillatorState` from oscillator.rs. -/
inductive OscillatorState where
  | idle
  | play (started_at : ℝ)
  | release (started_at : ℝ)

/-- Embedding of `ADSR` from oscillator.rs. -/
structure ADSR where
  attack_duration : ℝ
  decay_duration : ℝ
  sustain_amplitude_multiplier : ℝ
  release_duration : ℝ

/-- Embedding of `Oscillator` from oscillator.rs. -/
structure Oscillator where
  wave_function : WaveFunction
  index : ℕ
  effects : List Effect
  phase : ℝ
  inputs : OscillatorInputIterator
  state : OscillatorState
  secs_since_start : ℝ
  adsr : ADSR

/-- Embedding of `Oscillator::apply_change`: a frequency change overwrites
the frequency modulation value of a periodic wave function with the constant
`Number::number(freq)`; noise is unaffected. -/
def Oscillator.apply_change (osc : Oscillator) (change : OscillatorChange) : Oscillator :=
  match change with
  | .frequency freq =>
    match osc.wave_function with
    | .sine _ a p => { osc with wave_function := .sine (Number.num freq 0 1) a p }
    | .square _ a p => { osc with wave_function := .square (Number.num freq 0 1) a p }
    | .triangle _ a p => { osc with wave_function := .triangle (Number.num freq 0 1) a p }
    | .sawtooth _ a p => { osc with wave_function := .sawtooth (Number.num freq 0 1) a p }
    | .whiteNoise amp s pos => { osc with wave_function := .whiteNoise amp s pos }
    | .pinkNoise amp g cc s pos => { osc with wave_function := .pinkNoise amp g cc s pos }

/-- Embedding of `Oscillator::handle_input`: Press retunes and starts play,
Release starts the release envelope (resetting the sample index), PressSame
starts play at the current frequency. -/
def Oscillator.handle_input (osc : Oscillator) (input : OscillatorInput) : Oscillator :=
  match input with
  | .press freq =>
    let osc1 := osc.apply_change (.frequency freq)
    { osc1 with state := .play osc1.secs_since_start }
  | .release => { osc with index := 0, state := .release osc.secs_since_start }
  | .pressSame => { osc with state := .play osc.secs_since_start }

/-- Embedding of `Oscillator::update_inputs`: fire at most one due event from
the iterator. -/
def Oscillator.update_inputs (osc : Oscillator) : Oscillator :=
  let r := osc.inputs.next osc.secs_since_start
  match r.1 with
  | some i => { osc.handle_input i.input with inputs := r.2 }
  | none => { osc with inputs := r.2 }

/-- Embedding of `Oscillator::next_sample`: advance the clock by one sample
tick; in Idle emit silence without touching the wave function; otherwise
advance the sample index and the wave function. -/
def Oscillator.next_sample (SR : ℝ) (osc : Oscillator) : ℝ × Oscillator :=
  let osc0 := { osc with secs_since_start := osc.secs_since_start + 1 / SR }
  match osc0.state with
  | .idle => (0, osc0)
  | _ =>
    let osc1 := { osc0 with index := osc0.index + 1 }
    let r := WaveFunction.next_value SR osc1.wave_function osc1.phase (1 / SR)
    (r.1, { osc1 with wave_function := r.2.1, phase := r.2.2 })

/-- The per-grain sample loop of `Oscillator::next_grain`: n sequential calls
to `next_sample`, collecting the emitted values in order. -/
def Oscillator.next_samples (SR : ℝ) : ℕ → Oscillator → List ℝ × Oscillator
  | 0, osc => ([], osc)
  | n + 1, osc =>
    let r := Oscillator.next_sample SR osc
    let rr := Oscillator.next_samples SR n r.2
    (r.1 :: rr.1, rr.2)

/-- The effect-chain loop of `Oscillator::next_grain`: run every effect in
order on the grain, collecting the emitted oscillator changes. -/
def apply_effects (SR : ℝ) :
    List Effect → Grain → ℝ → List OscillatorChange
      → Option (Grain × List Effect × List OscillatorChange)
  | [], grain, _, changes => some (grain, [], changes)
  | e :: rest, grain, t, changes =>
    match Effect.apply SR e { grain := grain, time_since_start_of_beat := t } with
    | none => none
    | some (out, e1) =>
      match apply_effects SR rest out.grain t (changes ++ out.oscillator_changes) with
      | none => none
      | some (g2, es, ch2) => some (g2, e1 :: es, ch2)

/-- The ADSR shaping at the end of `Oscillator::next_grain`: attack, decay
and sustain scale the grain during Play; Release scales it down and, once
more than the release duration has elapsed, zeroes the grain and forces the
state back to Idle. -/
def Oscillator.apply_adsr (osc : Oscillator) (grain : Grain) : Grain × Oscillator :=
  match osc.state with
  | .idle => (grain, osc)
  | .play started_at =>
    let t := osc.secs_since_start - started_at
    let decay_start := osc.adsr.attack_duration
    let sustain_start := decay_start + osc.adsr.decay_duration
    if t < decay_start then
      (grain.map (fun x => x * (t / osc.adsr.attack_duration)), osc)
    else if t < sustain_start then
      let progress := (t - decay_start) / osc.adsr.decay_duration
      let amplitude := 1 - (1 - osc.adsr.sustain_amplitude_multiplier) * progress
      (grain.map (fun x => x * amplitude), osc)
    else
      (grain.map (fun x => x * osc.adsr.sustain_amplitude_multiplier), osc)
  | .release started_at =>
    let t := osc.secs_since_start - started_at
    if osc.adsr.release_duration < t then
      (List.replicate SAMPLES_PER_GRAIN 0, { osc with state := .idle })
    else
      let amplitude := osc.adsr.sustain_amplitude_multiplier
        * (1 - t / osc.adsr.release_duration)
      (grain.map (fun x => x * amplitude), osc)

/-- The tail of `Oscillator::next_grain` after the sample loop: run the
effect chain on the grain, apply the collected oscillator changes after the
whole chain has run, then apply the ADSR envelope. -/
def next_grain_core (SR : ℝ) (rg : List ℝ × Oscillator) : Option (Grain × Oscillator) :=
  match apply_effects SR rg.2.effects rg.1 rg.2.secs_since_start [] with
  | none => none
  | some (grain1, effects1, changes) =>
    some (Oscillator.apply_adsr
      (changes.foldl (fun o c => o.apply_change c) { rg.2 with effects := effects1 })
      grain1)

/-- Embedding of `Oscillator::next_grain`: fire at most one due input, run
the per-grain sample loop, then the effect chain, the collected oscillator
changes, and the ADSR envelope (`next_grain_core`). -/
def Oscillator.next_grain (SR : ℝ) (osc : Oscillator) : Option (Grain × Oscillator) :=
  next_grain_core SR (Oscillator.next_samples SR SAMPLES_PER_GRAIN osc.update_inputs)

/-- Iterated `Oscillator::next_grain`, keeping only the final state. -/
def Oscillator.iterate_grains (SR : ℝ) : ℕ → Oscillator → Option Oscillator
  | 0, osc => some osc
  | n + 1, osc =>
    (Oscillator.next_grain SR osc).bind (fun p => Oscillator.iterate_grains SR n p.2)

lemma next_sample_fields (SR : ℝ) (osc : Oscillator) :
    (Oscillator.next_sample SR osc).2.state = osc.state
    ∧ (Oscillator.next_sample SR osc).2.inputs = osc.inputs
    ∧ (Oscillator.next_sample SR osc).2.effects = osc.effects
    ∧ (Oscillator.next_sample SR osc).2.adsr = osc.adsr
    ∧ (Oscillator.next_sample SR osc).2.secs_since_start
        = osc.secs_since_start + 1 / SR := by
  cases hs : osc.state <;> simp [Oscillator.next_sample, hs]

lemma next_samples_fields (SR : ℝ) (n : ℕ) (osc : Oscillator) :
    (Oscillator.next_samples SR n osc).2.state = osc.state
    ∧ (Oscillator.next_samples SR n osc).2.inputs = osc.inputs
    ∧ (Oscillator.next_samples SR n osc).2.effects = osc.effects
    ∧ (Oscillator.next_samples SR n osc).2.adsr = osc.adsr
    ∧ (Oscillator.next_samples SR n osc).2.secs_since_start
        = osc.secs_since_start + n * (1 / SR) := by
  induction n generalizing osc with
  | zero => simp [Oscillator.next_samples]
  | succ m ih =>
    obtain ⟨h1, h2, h3, h4, h5⟩ := next_sample_fields SR osc
    obtain ⟨g1, g2, g3, g4, g5⟩ := ih (Oscillator.next_sample SR osc).2
    simp only [Oscillator.next_samples]
    refine ⟨g1.trans h1, g2.trans h2, g3.trans h3, g4.trans h4, ?_⟩
    rw [g5, h5]
    push_cast
    ring

lemma next_samples_idle (SR : ℝ) (n : ℕ) (osc : Oscillator)
    (h : osc.state = .idle) :
    Oscillator.next_samples SR n osc
      = (List.replicate n 0,
          { osc with secs_since_start := osc.secs_since_start + n * (1 / SR) }) := by
  induction n generalizing osc with
  | zero =>
    simp only [Oscillator.next_samples, List.replicate]
    rw [show osc.secs_since_start + (0 : ℕ) * (1 / SR) = osc.secs_since_start by
      push_cast; ring]
  | succ m ih =>
    have hstep : Oscillator.next_sample SR osc
        = (0, { osc with secs_since_start := osc.secs_since_start + 1 / SR }) := by
      simp [Oscillator.next_sample, h]
    simp only [Oscillator.next_samples, hstep]
    rw [ih { osc with secs_since_start := osc.secs_since_start + 1 / SR } (by simpa using h)]
    simp only [List.replicate_succ]
    rw [show osc.secs_since_start + 1 / SR + (m : ℝ) * (1 / SR)
      = osc.secs_since_start + ((m : ℕ) + 1 : ℕ) * (1 / SR) by push_cast; ring]

lemma update_inputs_exhausted (osc : Oscillator)
    (h : osc.inputs.inputs.length ≤ osc.inputs.index) :
    Oscillator.update_inputs osc = osc := by
  simp [Oscillator.update_inputs, OscillatorInputIterator.next, h]

lemma update_inputs_inputs (osc : Oscillator) :
    (Oscillator.update_inputs osc).inputs
      = (osc.inputs.next osc.secs_since_start).2 := by
  rcases hr : (osc.inputs.next osc.secs_since_start).1 with _ | i <;>
    simp [Oscillator.update_inputs, hr]

lemma iterator_next_index (it : OscillatorInputIterator) (t : ℝ) :
    (it.next t).2.index ≤ it.index + 1 := by
  unfold OscillatorInputIterator.next OscillatorInputIterator.repeat_inputs
  cases hd : it.repeat_delay <;> simp only [hd] <;> split_ifs <;> simp

lemma iterator_next_not_due (it : OscillatorInputIterator) (t : ℝ)
    (h : t < (it.inputs.getD it.index ⟨.release, 0⟩).time) :
    (it.next t).2 = it := by
  by_cases h1 : it.inputs.length ≤ it.index
  · simp [OscillatorInputIterator.next, h1]
  · have h2 : ¬((it.inputs.getD it.index ⟨.release, 0⟩).time ≤ t) := not_le.mpr h
    simp only [List.getD_eq_getElem?_getD] at h2
    simp [OscillatorInputIterator.next, h1, h2]

lemma apply_change_fields (osc : Oscillator) (c : OscillatorChange) :
    (osc.apply_change c).inputs = osc.inputs
    ∧ (osc.apply_change c).effects = osc.effects
    ∧ (osc.apply_change c).state = osc.state
    ∧ (osc.apply_change c).secs_since_start = osc.secs_since_start
    ∧ (osc.apply_change c).adsr = osc.adsr := by
  cases c with
  | frequency f =>
    cases hw : osc.wave_function <;> simp [Oscillator.apply_change, hw]

lemma foldl_apply_change_fields (chs : List OscillatorChange) (osc : Oscillator) :
    (chs.foldl (fun o c => o.apply_change c) osc).inputs = osc.inputs
    ∧ (chs.foldl (fun o c => o.apply_change c) osc).effects = osc.effects
    ∧ (chs.foldl (fun o c => o.apply_change c) osc).state = osc.state
    ∧ (chs.foldl (fun o c => o.apply_change c) osc).secs_since_start
        = osc.secs_since_start
    ∧ (chs.foldl (fun o c => o.apply_change c) osc).adsr = osc.adsr := by
  induction chs generalizing osc with
  | nil => simp
  | cons c t ih =>
    obtain ⟨a1, a2, a3, a4, a5⟩ := apply_change_fields osc c
    obtain ⟨b1, b2, b3, b4, b5⟩ := ih (osc.apply_change c)
    simp only [List.foldl_cons]
    exact ⟨b1.trans a1, b2.trans a2, b3.trans a3, b4.trans a4, b5.trans a5⟩

lemma apply_adsr_fields (osc : Oscillator) (g : Grain) :
    (Oscillator.apply_adsr osc g).2.inputs = osc.inputs
    ∧ (Oscillator.apply_adsr osc g).2.effects = osc.effects
    ∧ (Oscillator.apply_adsr osc g).2.secs_since_start = osc.secs_since_start
    ∧ (Oscillator.apply_adsr osc g).2.adsr = osc.adsr := by
  cases hs : osc.state
  · simp [Oscillator.apply_adsr, hs]
  · simp only [Oscillator.apply_adsr, hs]
    split_ifs <;> simp
  · simp only [Oscillator.apply_adsr, hs]
    split_ifs <;> simp

lemma apply_adsr_play (osc : Oscillator) (g : Grain) (sa : ℝ)
    (h : osc.state = .play sa) :
    (Oscillator.apply_adsr osc g).2 = osc := by
  simp only [Oscillator.apply_adsr, h]
  split_ifs <;> rfl

lemma apply_adsr_release_elapsed (osc : Oscillator) (g : Grain) (sa : ℝ)
    (h : osc.state = .release sa)
    (he : osc.adsr.release_duration < osc.secs_since_start - sa) :
    Oscillator.apply_adsr osc g
      = (List.replicate SAMPLES_PER_GRAIN 0, { osc with state := .idle }) := by
  simp only [Oscillator.apply_adsr, h]
  rw [if_pos he]

lemma next_grain_core_inputs (SR : ℝ) (rg : List ℝ × Oscillator) (g : Grain)
    (osc1 : Oscillator) (h : next_grain_core SR rg = some (g, osc1)) :
    osc1.inputs = rg.2.inputs := by
  unfold next_grain_core at h
  rcases he : apply_effects SR rg.2.effects rg.1 rg.2.secs_since_start []
    with _ | ⟨g1, es1, chs⟩
  · rw [he] at h
    cases h
  · rw [he] at h
    simp only [Option.some.injEq] at h
    have hosc1 : osc1 = (Oscillator.apply_adsr
        (chs.foldl (fun o c => o.apply_change c) { rg.2 with effects := es1 }) g1).2 :=
      (congrArg Prod.snd h).symm
    rw [hosc1, (apply_adsr_fields _ _).1, (foldl_apply_change_fields _ _).1]

lemma next_grain_some_inputs (SR : ℝ) (osc : Oscillator) (g : Grain)
    (osc1 : Oscillator) (h : Oscillator.next_grain SR osc = some (g, osc1)) :
    osc1.inputs = (Oscillator.update_inputs osc).inputs := by
  unfold Oscillator.next_grain at h
  rw [next_grain_core_inputs SR _ g osc1 h]
  exact (next_samples_fields SR SAMPLES_PER_GRAIN osc.update_inputs).2.1

lemma apply_effects_nil (SR : ℝ) (g : Grain) (t : ℝ) (ch : List OscillatorChange) :
    apply_effects SR [] g t ch = some (g, [], ch) := rfl

lemma apply_adsr_idle (osc : Oscillator) (g : Grain) (h : osc.state = .idle) :
    Oscillator.apply_adsr osc g = (g, osc) := by
  simp only [Oscillator.apply_adsr, h]

lemma next_grain_core_no_effects (SR : ℝ) (rg : List ℝ × Oscillator)
    (h : rg.2.effects = []) :
    next_grain_core SR rg = some (Oscillator.apply_adsr rg.2 rg.1) := by
  have hrec : ({ rg.2 with effects := ([] : List Effect) } : Oscillator) = rg.2 := by
    rw [← h]
  unfold next_grain_core
  rw [h, apply_effects_nil]
  dsimp only [List.foldl_nil]
  rw [hrec]

lemma idle_grain_step (SR : ℝ) (osc : Oscillator)
    (heff : osc.effects = [])
    (hexh : osc.inputs.inputs.length ≤ osc.inputs.index)
    (hst : osc.state = .idle) :
    ∃ osc1, Oscillator.next_grain SR osc
        = some (List.replicate SAMPLES_PER_GRAIN 0, osc1)
      ∧ osc1.effects = []
      ∧ osc1.inputs = osc.inputs
      ∧ osc1.state = .idle := by
  have hA := update_inputs_exhausted osc hexh
  unfold Oscillator.next_grain
  rw [hA, next_samples_idle SR SAMPLES_PER_GRAIN osc hst,
    next_grain_core_no_effects SR _ heff]
  refine ⟨{ osc with secs_since_start :=
      osc.secs_since_start + (SAMPLES_PER_GRAIN : ℝ) * (1 / SR) }, ?_, heff, rfl, hst⟩
  exact congrArg some (apply_adsr_idle
    { osc with secs_since_start :=
        osc.secs_since_start + (SAMPLES_PER_GRAIN : ℝ) * (1 / SR) }
    (List.replicate SAMPLES_PER_GRAIN 0) hst)

lemma release_grain_step (SR : ℝ) (osc : Oscillator) (sa : ℝ)
    (heff : osc.effects = [])
    (hexh : osc.inputs.inputs.length ≤ osc.inputs.index)
    (hst : osc.state = .release sa)
    (helapsed : osc.adsr.release_duration
      < osc.secs_since_start + (SAMPLES_PER_GRAIN : ℝ) * (1 / SR) - sa) :
    ∃ osc1, Oscillator.next_grain SR osc
        = some (List.replicate SAMPLES_PER_GRAIN 0, osc1)
      ∧ osc1.effects = []
      ∧ osc1.inputs = osc.inputs
      ∧ osc1.state = .idle := by
  have hA := update_inputs_exhausted osc hexh
  obtain ⟨f1, f2, f3, f4, f5⟩ := next_samples_fields SR SAMPLES_PER_GRAIN osc
  unfold Oscillator.next_grain
  rw [hA]
  generalize hR : Oscillator.next_samples SR SAMPLES_PER_GRAIN osc = R
  rw [hR] at f1 f2 f3 f4 f5
  rw [next_grain_core_no_effects SR R (f3.trans heff),
    apply_adsr_release_elapsed R.2 R.1 sa (f1.trans hst) (by rw [f4, f5]; linarith)]
  exact ⟨_, rfl, f3.trans heff, f2, rfl⟩

/-- Claim C3, amended: an oscillator with an EMPTY effect chain whose input
queue is exhausted (its Press and Release both consumed) and which is in the
Release state transitions to Idle as soon as more than the release duration
has elapsed by the end of a grain; that grain and every grain produced
afterwards consist of exactly zero samples, and the state stays Idle.  (With
a stateful effect attached the state still becomes Idle but the grains need
not be zero: see the counterexample.) -/
theorem oscillator_release_then_idle (SR : ℝ) (osc : Oscillator) (sa : ℝ)
    (heff : osc.effects = [])
    (hexh : osc.inputs.inputs.length ≤ osc.inputs.index)
    (hstate : osc.state = .release sa)
    (helapsed : osc.adsr.release_duration
      < osc.secs_since_start + (SAMPLES_PER_GRAIN : ℝ) * (1 / SR) - sa) :
    ∃ osc1, Oscillator.next_grain SR osc
        = some (List.replicate SAMPLES_PER_GRAIN 0, osc1)
      ∧ osc1.state = .idle
      ∧ ∀ k, ∃ osc2, Oscillator.iterate_grains SR k osc1 = some osc2
          ∧ osc2.state = .idle
          ∧ ∃ osc3, Oscillator.next_grain SR osc2
              = some (List.replicate SAMPLES_PER_GRAIN 0, osc3) := by
  obtain ⟨osc1, hg, he1, hi1, hs1⟩ :=
    release_grain_step SR osc sa heff hexh hstate helapsed
  have hx1 : osc1.inputs.inputs.length ≤ osc1.inputs.index := by
    rw [hi1]
    exact hexh
  have inv : ∀ k (o : Oscillator), o.effects = []
      → o.inputs.inputs.length ≤ o.inputs.index → o.state = .idle
      → ∃ o2, Oscillator.iterate_grains SR k o = some o2
          ∧ o2.effects = []
          ∧ o2.inputs.inputs.length ≤ o2.inputs.index
          ∧ o2.state = .idle := by
    intro k
    induction k with
    | zero =>
      intro o h1 h2 h3
      exact ⟨o, rfl, h1, h2, h3⟩
    | succ m ih =>
      intro o h1 h2 h3
      obtain ⟨o1, hg1, hoe, hoi, hos⟩ := idle_grain_step SR o h1 h2 h3
      obtain ⟨o2, hit, p1, p2, p3⟩ := ih o1 hoe (by rw [hoi]; exact h2) hos
      refine ⟨o2, ?_, p1, p2, p3⟩
      simp only [Oscillator.iterate_grains]
      rw [hg1]
      dsimp only [Option.bind]
      exact hit
  refine ⟨osc1, hg, hs1, ?_⟩
  intro k
  obtain ⟨o2, hit, q1, q2, q3⟩ := inv k osc1 he1 hx1 hs1
  obtain ⟨o3, hg3, _, _, _⟩ := idle_grain_step SR o2 q1 q2 q3
  exact ⟨o2, hit, q3, o3, hg3⟩

/-- A concrete oscillator in the Release state with an exhausted input queue,
no effects, release duration 0.5 s and 1 s already elapsed. -/
def c3_osc : Oscillator :=
  { wave_function := .sine (Number.num 220 0 1) (Number.num 1 0 1) (Number.num 0 0 1)
    index := 0
    effects := []
    phase := 0
    inputs := { inputs := [], index := 0, total_duration := 0, repeat_delay := none }
    state := .release 0
    secs_since_start := 1
    adsr := ⟨0.1, 0.1, 1, 0.5⟩ }

/-- Concrete instance of the C3 theorem at a sample rate of 512 Hz (one
second per grain): the release-expired oscillator goes Idle and emits only
zero grains from then on. -/
theorem oscillator_release_then_idle_witness :
    ∃ osc1, Oscillator.next_grain 512 c3_osc
        = some (List.replicate SAMPLES_PER_GRAIN 0, osc1)
      ∧ osc1.state = .idle
      ∧ ∀ k, ∃ osc2, Oscillator.iterate_grains 512 k osc1 = some osc2
          ∧ osc2.state = .idle
          ∧ ∃ osc3, Oscillator.next_grain 512 osc2
              = some (List.replicate SAMPLES_PER_GRAIN 0, osc3) :=
  oscillator_release_then_idle 512 c3_osc 0 rfl (by simp [c3_osc]) rfl
    (by norm_num [c3_osc, SAMPLES_PER_GRAIN])

/-- A concrete oscillator whose queue holds two events both due at time 0:
a PressSame and then a Release. -/
def c8_osc : Oscillator :=
  { wave_function := .sine (Number.num 220 0 1) (Number.num 1 0 1) (Number.num 0 0 1)
    index := 0
    effects := []
    phase := 0
    inputs := ⟨[⟨.pressSame, 0⟩, ⟨.release, 0⟩], 0, 0, none⟩
    state := .idle
    secs_since_start := 0
    adsr := ⟨0.1, 0.1, 1, 0.1⟩ }

lemma c8_eval : ∃ g osc1, Oscillator.next_grain 48000 c8_osc = some (g, osc1)
    ∧ osc1.inputs.index = 1
    ∧ osc1.state = OscillatorState.play 0 := by
  have hA : Oscillator.update_inputs c8_osc
      = { c8_osc with
          state := .play 0
          inputs := ⟨[⟨.pressSame, 0⟩, ⟨.release, 0⟩], 1, 0, none⟩ } := by
    norm_num [Oscillator.update_inputs, OscillatorInputIterator.next,
      Oscillator.handle_input, c8_osc]
  obtain ⟨f1, f2, f3, f4, f5⟩ := next_samples_fields 48000 SAMPLES_PER_GRAIN
    (Oscillator.update_inputs c8_osc)
  unfold Oscillator.next_grain
  generalize hR : Oscillator.next_samples 48000 SAMPLES_PER_GRAIN
    (Oscillator.update_inputs c8_osc) = R
  rw [hR] at f1 f2 f3 f4 f5
  have heffR : R.2.effects = [] := by
    rw [f3, hA]
    rfl
  have hstR : R.2.state = OscillatorState.play 0 := by
    rw [f1, hA]
  have hsnd := apply_adsr_play R.2 R.1 0 hstR
  rw [next_grain_core_no_effects 48000 R heffR]
  refine ⟨(Oscillator.apply_adsr R.2 R.1).1, (Oscillator.apply_adsr R.2 R.1).2,
    rfl, ?_, ?_⟩
  · rw [hsnd, f2, hA]
  · rw [hsnd]
    exact hstR

/-- Claim C8, as stated, is false: the input queue is checked once per grain,
not once per constituent sample, and at most the first due event fires per
grain.  Here two events (PressSame then Release) are both due at time 0
inside the first grain, yet after producing one grain only the first has
fired: the queue cursor stands at 1 and the oscillator is still in Play; the
Release will only be seen at a later grain boundary. -/
theorem next_grain_single_event_counterexample :
    ∃ g osc1, Oscillator.next_grain 48000 c8_osc = some (g, osc1)
      ∧ osc1.inputs.index = 1
      ∧ osc1.state = OscillatorState.play 0 :=
  c8_eval

/-- Claim C8, amended: the pending input-event queue is consulted once per
grain, before the samples are generated; at most the first due event fires
during a grain (the cursor advances by at most one, except for a repeat
reset to zero which fires nothing), and an event not yet due at the grain's
start does not fire during that grain even if its due time falls inside it. -/
theorem next_grain_checks_queue_once (SR : ℝ) (osc : Oscillator) (g : Grain)
    (osc1 : Oscillator) (h : Oscillator.next_grain SR osc = some (g, osc1)) :
    osc1.inputs.index ≤ osc.inputs.index + 1
    ∧ (osc.secs_since_start
        < (osc.inputs.inputs.getD osc.inputs.index ⟨.release, 0⟩).time →
      osc1.inputs = osc.inputs) := by
  have hi := next_grain_some_inputs SR osc g osc1 h
  rw [hi, update_inputs_inputs]
  exact ⟨iterator_next_index _ _, fun hdue => iterator_next_not_due _ _ hdue⟩

/-- Concrete instance of the amended C8 theorem on the two-event oscillator:
one produced grain advances the queue cursor by at most one. -/
theorem next_grain_checks_queue_once_witness :
    ∃ g osc1, Oscillator.next_grain 48000 c8_osc = some (g, osc1)
      ∧ osc1.inputs.index ≤ c8_osc.inputs.index + 1 := by
  obtain ⟨g, osc1, hsome, _, _⟩ := c8_eval
  exact ⟨g, osc1, hsome, (next_grain_checks_queue_once 48000 c8_osc g osc1 hsome).1⟩

/-- The one-pole low-pass filter effect used against claim C3: constant
cutoff 6000 Hz, constant resonance 0, a single pole whose stored previous
output is `p` (the ringing state left by the pressed phase). -/
def cex_lpf (p : ℝ) : Filter :=
  { mode := .lowPass
    cutoff_frequency := Number.num 6000 0 1
    resonance := Number.num 0 0 1
    poles := [⟨p⟩] }

/-- The cutoff coefficient `Filter::process_sample` computes for `cex_lpf`. -/
def cex_cv (SR : ℝ) : ℝ := 1 - Real.exp (-2 * Real.pi * (1 * 6000 + 0) / SR)

lemma cex_filter_step (SR x p : ℝ) :
    Filter.process_sample SR (cex_lpf p) x
      = some (Real.tanh ((cex_cv SR * x + (1 - cex_cv SR) * p) * 0.7) * 1.4,
          cex_lpf (cex_cv SR * x + (1 - cex_cv SR) * p)) := by
  simp [Filter.process_sample, cex_lpf, cex_cv, Number.next_value, Filter.run_poles,
    OnePoleFilter.process_sample, Filter.read_output]

lemma cex_processGrain (SR : ℝ) (n : ℕ) (p : ℝ) :
    ∃ ys, processGrain (fun st x => Filter.process_sample SR st x) (cex_lpf p)
        (List.replicate n 0)
      = some (ys, cex_lpf ((1 - cex_cv SR) ^ n * p))
      ∧ (0 < n → ys.getD 0 0 = Real.tanh (((1 - cex_cv SR) * p) * 0.7) * 1.4) := by
  induction n generalizing p with
  | zero =>
    refine ⟨[], ?_, fun h => absurd h (lt_irrefl 0)⟩
    rw [show ((1 : ℝ) - cex_cv SR) ^ 0 * p = p by ring]
    simp [processGrain]
  | succ m ih =>
    have hstep := cex_filter_step SR 0 p
    rw [show cex_cv SR * 0 + (1 - cex_cv SR) * p = (1 - cex_cv SR) * p by ring] at hstep
    obtain ⟨ys, hpg, _⟩ := ih ((1 - cex_cv SR) * p)
    refine ⟨Real.tanh (((1 - cex_cv SR) * p) * 0.7) * 1.4 :: ys, ?_, fun _ => by simp⟩
    rw [List.replicate_succ]
    simp only [processGrain]
    rw [hstep]
    dsimp only
    rw [hpg]
    dsimp only
    rw [show ((1 : ℝ) - cex_cv SR) ^ m * ((1 - cex_cv SR) * p)
      = (1 - cex_cv SR) ^ (m + 1) * p by ring]

lemma cex_apply_effects (SR t p : ℝ) :
    ∃ ys, apply_effects SR [Effect.filter (cex_lpf p)]
        (List.replicate SAMPLES_PER_GRAIN 0) t []
      = some (ys,
          [Effect.filter (cex_lpf ((1 - cex_cv SR) ^ SAMPLES_PER_GRAIN * p))], [])
      ∧ ys.getD 0 0 = Real.tanh (((1 - cex_cv SR) * p) * 0.7) * 1.4 := by
  obtain ⟨ys, hpg, hhead⟩ := cex_processGrain SR SAMPLES_PER_GRAIN p
  refine ⟨ys, ?_, hhead (by norm_num [SAMPLES_PER_GRAIN])⟩
  simp only [apply_effects, Effect.apply]
  rw [hpg]
  dsimp only
  rfl

/-- The zero-amplitude sine used against claim C3: its raw samples are all
zero, so nonzero output can only come from the effect chain's state. -/
def cex_wave : WaveFunction :=
  .sine (Number.num 220 0 1) (Number.num 0 0 1) (Number.num 0 0 1)

lemma cex_next_samples (SR : ℝ) (n : ℕ) (osc : Oscillator)
    (hw : osc.wave_function = cex_wave) :
    (Oscillator.next_samples SR n osc).1 = List.replicate n 0 := by
  induction n generalizing osc with
  | zero => simp [Oscillator.next_samples]
  | succ m ih =>
    have hstep : (Oscillator.next_sample SR osc).1 = 0
        ∧ (Oscillator.next_sample SR osc).2.wave_function = cex_wave := by
      cases hs : osc.state <;>
        simp [Oscillator.next_sample, hs, hw, cex_wave, WaveFunction.next_value,
          Number.next_value]
    simp only [Oscillator.next_samples, List.replicate_succ]
    rw [ih (Oscillator.next_sample SR osc).2 hstep.2, hstep.1]

/-- The counterexample oscillator against claim C3: it has received a Press
(at time 0) and then a Release (at time 1/2) — both consumed, the queue is
exhausted — sits in the Release state with 1/2 s already elapsed against a
1/10 s release duration, and carries a one-pole low-pass effect whose pole
is still ringing (previous output 1) from the pressed phase. -/
def cex_osc : Oscillator :=
  { wave_function := cex_wave
    index := 0
    effects := [Effect.filter (cex_lpf 1)]
    phase := 0
    inputs := ⟨[⟨.press 220, 0⟩, ⟨.release, 1/2⟩], 2, 1/2, none⟩
    state := .release (1/2)
    secs_since_start := 1
    adsr := ⟨1/10, 1/10, 1, 1/10⟩ }

lemma cex_grain1 : ∃ oscA,
    Oscillator.next_grain 512 cex_osc
        = some (List.replicate SAMPLES_PER_GRAIN 0, oscA)
      ∧ oscA.state = OscillatorState.idle
      ∧ oscA.inputs.inputs.length ≤ oscA.inputs.index
      ∧ oscA.effects
          = [Effect.filter (cex_lpf ((1 - cex_cv 512) ^ SAMPLES_PER_GRAIN * 1))] := by
  have hexh : cex_osc.inputs.inputs.length ≤ cex_osc.inputs.index := by
    norm_num [cex_osc]
  have hA := update_inputs_exhausted cex_osc hexh
  obtain ⟨f1, f2, f3, f4, f5⟩ := next_samples_fields 512 SAMPLES_PER_GRAIN cex_osc
  have hzero := cex_next_samples 512 SAMPLES_PER_GRAIN cex_osc rfl
  unfold Oscillator.next_grain
  rw [hA]
  generalize hR : Oscillator.next_samples 512 SAMPLES_PER_GRAIN cex_osc = R
  rw [hR] at f1 f2 f3 f4 f5 hzero
  unfold next_grain_core
  rw [f3, show cex_osc.effects = [Effect.filter (cex_lpf 1)] from rfl, hzero]
  obtain ⟨ys, happ, _⟩ := cex_apply_effects 512 R.2.secs_since_start 1
  rw [happ]
  dsimp only [List.foldl_nil]
  have hstX : ({ R.2 with effects :=
      [Effect.filter (cex_lpf ((1 - cex_cv 512) ^ SAMPLES_PER_GRAIN * 1))] }
        : Oscillator).state = OscillatorState.release (1/2) := by
    show R.2.state = _
    rw [f1]
    rfl
  have heX : ({ R.2 with effects :=
      [Effect.filter (cex_lpf ((1 - cex_cv 512) ^ SAMPLES_PER_GRAIN * 1))] }
          : Oscillator).adsr.release_duration
      < ({ R.2 with effects :=
        [Effect.filter (cex_lpf ((1 - cex_cv 512) ^ SAMPLES_PER_GRAIN * 1))] }
          : Oscillator).secs_since_start - 1/2 := by
    show R.2.adsr.release_duration < R.2.secs_since_start - 1/2
    rw [f4, f5]
    norm_num [cex_osc, SAMPLES_PER_GRAIN]
  rw [apply_adsr_release_elapsed _ ys (1/2) hstX heX]
  refine ⟨_, rfl, rfl, ?_, rfl⟩
  show R.2.inputs.inputs.length ≤ R.2.inputs.index
  rw [f2]
  exact hexh

lemma cex_grain2 (osc : Oscillator) (q : ℝ)
    (hst : osc.state = OscillatorState.idle)
    (hexh : osc.inputs.inputs.length ≤ osc.inputs.index)
    (heff : osc.effects = [Effect.filter (cex_lpf q)]) :
    ∃ g oscB, Oscillator.next_grain 512 osc = some (g, oscB)
      ∧ g.getD 0 0 = Real.tanh (((1 - cex_cv 512) * q) * 0.7) * 1.4 := by
  have hA := update_inputs_exhausted osc hexh
  unfold Oscillator.next_grain
  rw [hA, next_samples_idle 512 SAMPLES_PER_GRAIN osc hst]
  unfold next_grain_core
  dsimp only
  rw [heff]
  obtain ⟨ys, happ, hhead⟩ := cex_apply_effects 512
    (osc.secs_since_start + (SAMPLES_PER_GRAIN : ℝ) * (1 / 512)) q
  rw [happ]
  dsimp only [List.foldl_nil]
  have hstX : ({ { osc with secs_since_start :=
        osc.secs_since_start + (SAMPLES_PER_GRAIN : ℝ) * (1 / 512) } with
      effects :=
        [Effect.filter (cex_lpf ((1 - cex_cv 512) ^ SAMPLES_PER_GRAIN * q))] }
        : Oscillator).state = OscillatorState.idle := by
    show osc.state = _
    exact hst
  rw [apply_adsr_idle _ ys hstX]
  exact ⟨ys, _, rfl, hhead⟩

/-- Claim C3, as stated, is false: the universally-quantified claim covers
oscillators with stateful effects, but the effect chain runs before the ADSR
step and the Idle branch does not zero the grain, so a ringing effect keeps
emitting after the release has expired.  Here the counterexample oscillator
(Press then Release consumed, release long expired, a one-pole low-pass with
ringing state attached) transitions to Idle on the next grain, yet the grain
after that has a provably nonzero first sample. -/
theorem oscillator_release_then_idle_counterexample :
    ∃ oscA g2 oscB,
      Oscillator.next_grain 512 cex_osc
          = some (List.replicate SAMPLES_PER_GRAIN 0, oscA)
        ∧ oscA.state = OscillatorState.idle
        ∧ Oscillator.next_grain 512 oscA = some (g2, oscB)
        ∧ g2.getD 0 0 ≠ 0 := by
  obtain ⟨oscA, hg1, hstA, hexhA, heffA⟩ := cex_grain1
  obtain ⟨g2, oscB, hg2, hhead⟩ := cex_grain2 oscA _ hstA hexhA heffA
  refine ⟨oscA, g2, oscB, hg1, hstA, hg2, ?_⟩
  rw [hhead]
  have h1c : (1 : ℝ) - cex_cv 512 = Real.exp (-2 * Real.pi * (1 * 6000 + 0) / 512) := by
    unfold cex_cv
    ring
  have harg : (((1 : ℝ) - cex_cv 512)
      * ((1 - cex_cv 512) ^ SAMPLES_PER_GRAIN * 1)) * 0.7 ≠ 0 := by
    refine mul_ne_zero (mul_ne_zero ?_ ?_) (by norm_num)
    · rw [h1c]
      exact Real.exp_ne_zero _
    · rw [h1c, mul_one]
      exact pow_ne_zero _ (Real.exp_ne_zero _)
  have htanh : Real.tanh ((((1 : ℝ) - cex_cv 512)
      * ((1 - cex_cv 512) ^ SAMPLES_PER_GRAIN * 1)) * 0.7) ≠ 0 := by
    rw [Real.tanh_eq_sinh_div_cosh]
    exact div_ne_zero (Real.sinh_ne_zero.mpr harg) (ne_of_gt (Real.cosh_pos _))
  exact mul_ne_zero htanh (by norm_num)

end

end Gran
